import Mathlib

/-!
Verification of the `xt` package (XML Types): a generic representation of
arbitrary XML documents, decoded from a token stream, re-encodable as markup
tokens, and encodable/decodable as tagged-union JSON.

The development shallowly embeds `src/xt.go`:

* the Node Model (`Name`, `Attr`, `Pi`, `Decl`, `Comment`, `Text`, `Elem`,
  `Nodes`) becomes the inductive `Node` (an `Elem` is the `Node.elem`
  constructor carrying the struct's three fields);
* the external token source / sink (`encoding/xml`'s `Decoder`/`Encoder`)
  is modeled as a list of tokens `Tok`, end-of-stream (`io.EOF`) being the
  empty list;
* JSON bytes are modeled as the inductive `Json` value they parse to; JSON
  objects are field lists in emission order, looked up with the
  last-occurrence-wins rule of `encoding/json`;
* Go methods become functions named after them (`piMarshalXML` for
  `Pi.MarshalXML`, and so on); value receivers make the original tree
  immutable by construction, as in the source, where `MarshalXML` mutates
  only its local copy;
* `fmt.Errorf` failures become constructors of small error types whose doc
  comments quote the Go format strings.

The recursive decoders consume fuel so that every definition is structurally
recursive and kernel-computable; fuel-irrelevance lemmas show the wrappers
(`decodeNodeJson`, `decodeChildren`, `decodeToken`, `decodeNodes`) compute
the fuel-free fixpoint.
-/

namespace Xt

/-- Go `Name`: an XML name with namespace and local parts
(`Space string`, `Local string`). -/
structure Name where
  space : String
  local_ : String
  deriving Repr, DecidableEq

/-- Go `Attr`: an XML attribute (`Name Name`, `Value string`). -/
structure Attr where
  name : Name
  value : String
  deriving Repr, DecidableEq

/-- Go `Node`: the closed union of XML node kinds. `Node.elem` carries the
three fields of the Go struct `Elem` (`Name Name`, `Attrs []Attr`,
`Nodes Nodes`). -/
inductive Node where
  | pi (target content : String)
  | decl (content : String)
  | comment (content : String)
  | text (content : String)
  | elem (name : Name) (attrs : List Attr) (children : List Node)
  deriving Repr

/-- Go constant `TypePi = "pi"`. -/
def TypePi : String := "pi"

/-- Go constant `TypeDecl = "decl"`. -/
def TypeDecl : String := "decl"

/-- Go constant `TypeComment = "comment"`. -/
def TypeComment : String := "comment"

/-- Go constant `TypeText = "text"`. -/
def TypeText : String := "text"

/-- Go constant `TypeElem = "elem"`. -/
def TypeElem : String := "elem"

mutual

/-- Size measure on nodes, used for the membership induction principle. -/
def nsize : Node → Nat
  | .pi _ _ => 1
  | .decl _ => 1
  | .comment _ => 1
  | .text _ => 1
  | .elem _ _ children => 1 + nsizeList children

/-- Size measure on node lists. -/
def nsizeList : List Node → Nat
  | [] => 0
  | n :: ns => 1 + nsize n + nsizeList ns

end

theorem nsize_pos (n : Node) : 0 < nsize n := by
  cases n <;> simp [nsize]

theorem nsize_le_of_mem {x : Node} {ns : List Node} (h : x ∈ ns) :
    nsize x ≤ nsizeList ns := by
  induction ns with
  | nil => cases h
  | cons n ns ih =>
    rcases List.mem_cons.mp h with rfl | h
    · simp [nsizeList]; omega
    · have := ih h
      simp [nsizeList]; omega

/-- Membership-based induction principle for the nested inductive `Node`. -/
theorem Node.inductionOn {motive : Node → Prop}
    (hpi : ∀ target content, motive (.pi target content))
    (hdecl : ∀ content, motive (.decl content))
    (hcomment : ∀ content, motive (.comment content))
    (htext : ∀ content, motive (.text content))
    (helem : ∀ name attrs children,
      (∀ x ∈ children, motive x) → motive (.elem name attrs children)) :
    ∀ n, motive n := by
  have key : ∀ k n, nsize n ≤ k → motive n := by
    intro k
    induction k with
    | zero => intro n h; exact absurd h (by have := nsize_pos n; omega)
    | succ k ih =>
      intro n h
      cases n with
      | pi target content => exact hpi target content
      | decl content => exact hdecl content
      | comment content => exact hcomment content
      | text content => exact htext content
      | elem name attrs children =>
        refine helem name attrs children fun x hx => ih x ?_
        have h1 := nsize_le_of_mem hx
        simp [nsize] at h
        omega
  intro n
  exact key (nsize n) n le_rfl

/-! ## JSON value model

`encoding/json` bytes are modeled as the value they parse to. Object fields
are listed in emission order; `jlookup` implements the Go decoder's
last-occurrence-wins treatment of duplicate keys. -/

/-- A JSON value. -/
inductive Json where
  | str (s : String)
  | num (n : Int)
  | jbool (b : Bool)
  | null
  | arr (elems : List Json)
  | obj (fields : List (String × Json))
  deriving Repr

mutual

/-- Size measure on JSON values, used as decoder fuel. -/
def jsize : Json → Nat
  | .str _ => 1
  | .num _ => 1
  | .jbool _ => 1
  | .null => 1
  | .arr elems => 1 + jsizeList elems
  | .obj fields => 1 + jsizeFields fields

/-- Size measure on JSON arrays. -/
def jsizeList : List Json → Nat
  | [] => 0
  | x :: xs => 1 + jsize x + jsizeList xs

/-- Size measure on JSON object field lists. -/
def jsizeFields : List (String × Json) → Nat
  | [] => 0
  | f :: fs => 1 + jsize f.2 + jsizeFields fs

end

theorem jsize_pos (j : Json) : 0 < jsize j := by
  cases j <;> simp [jsize]

/-- Field lookup with the `encoding/json` rule that a later duplicate key
overwrites an earlier one. -/
def jlookup (key : String) : List (String × Json) → Option Json
  | [] => none
  | f :: fs =>
    match jlookup key fs with
    | some v => some v
    | none => if f.1 = key then some f.2 else none

theorem jlookup_jsize {key : String} {fields : List (String × Json)} {v : Json}
    (h : jlookup key fields = some v) : jsize v ≤ jsizeFields fields := by
  induction fields with
  | nil => simp [jlookup] at h
  | cons f fs ih =>
    rw [jlookup] at h
    rcases hrest : jlookup key fs with _ | w
    · rw [hrest] at h
      by_cases hf : f.1 = key
      · rw [if_pos hf] at h
        injection h with h
        subst h
        simp [jsizeFields]
        omega
      · simp [hf] at h
    · rw [hrest] at h
      cases h
      have := ih hrest
      simp [jsizeFields]; omega

theorem jsize_le_of_mem {x : Json} {xs : List Json} (h : x ∈ xs) :
    jsize x ≤ jsizeList xs := by
  induction xs with
  | nil => cases h
  | cons y ys ih =>
    rcases List.mem_cons.mp h with rfl | h
    · simp [jsizeList]; omega
    · have := ih h
      simp [jsizeList]; omega

theorem jlookup_append (key : String) (l1 l2 : List (String × Json)) :
    jlookup key (l1 ++ l2) =
      match jlookup key l2 with
      | some v => some v
      | none => jlookup key l1 := by
  induction l1 with
  | nil =>
    cases h : jlookup key l2 <;> simp [jlookup, h]
  | cons f fs ih =>
    cases h : jlookup key l2 with
    | none =>
      simp only [h] at ih ⊢
      rw [List.cons_append, jlookup, ih, jlookup]
    | some v =>
      simp only [h] at ih ⊢
      rw [List.cons_append, jlookup, ih]

/-! ## JSON encoding

Each Go `MarshalJSON` method marshals a struct whose string fields carry
the `omitempty` tag, so an empty string is omitted; slice fields
(`Attrs`, `Nodes`) are omitted when empty; struct fields (`Name`) are
always emitted, `omitempty` having no effect on Go structs. -/

/-- One field of a marshaled Go struct whose tag is `json:"key,omitempty"`
with a string value: omitted exactly when the value is empty. -/
def strField (key value : String) : List (String × Json) :=
  if value = "" then [] else [(key, Json.str value)]

/-- Marshaling of `Name` (fields `space,omitempty` and `local,omitempty`). -/
def nameToJson (name : Name) : Json :=
  .obj (strField ("space") name.space ++ strField ("local") name.local_)

/-- Marshaling of `Attr` (fields `name,omitempty` and `value,omitempty`;
`Name` is a struct, so it is never omitted). -/
def attrToJson (attr : Attr) : Json :=
  .obj ((("name"), nameToJson attr.name) :: strField ("value") attr.value)

/-- Go `jsonMarshalContent`: marshal `{typeHead; Content string}`, both
fields `omitempty`. -/
def jsonMarshalContent (typ content : String) : Json :=
  .obj (strField ("type") typ ++ strField ("content") content)

/-- Go `Pi.MarshalJSON`: marshal `{typeHead; inner}` where `inner` has the
fields of `Pi` (`target,omitempty`, `content,omitempty`). -/
def piMarshalJSON (target content : String) : Json :=
  .obj (strField ("type") TypePi ++ strField ("target") target ++
    strField ("content") content)

mutual

/-- JSON marshaling of one `Node`: dispatch to the dynamic `MarshalJSON`
method of the stored variant. The `elem` case is Go `Elem.MarshalJSON`:
marshal `{typeHead; inner}` where `inner` has fields `name,omitempty`
(a struct, hence always emitted), `attrs,omitempty`, `nodes,omitempty`. -/
def nodeMarshalJSON : Node → Json
  | .pi target content => piMarshalJSON target content
  | .decl content => jsonMarshalContent TypeDecl content
  | .comment content => jsonMarshalContent TypeComment content
  | .text content => jsonMarshalContent TypeText content
  | .elem name attrs children =>
    .obj (strField ("type") TypeElem ++ [(("name"), nameToJson name)] ++
      (if attrs.isEmpty then [] else [(("attrs"), Json.arr (attrs.map attrToJson))]) ++
      (if children.isEmpty then [] else [(("nodes"), Json.arr (nodeListMarshalJSON children))]))

/-- JSON marshaling of a node list, element by element in order (Go slice
marshaling of `Nodes`). -/
def nodeListMarshalJSON : List Node → List Json
  | [] => []
  | n :: ns => nodeMarshalJSON n :: nodeListMarshalJSON ns

end

/-- `json.Marshal` applied to a whole `Nodes` sequence: a JSON array of the
marshaled members, in order. -/
def nodesMarshalJSON (ns : List Node) : Json :=
  .arr (nodeListMarshalJSON ns)

/-! ## JSON decoding -/

/-- Errors produced along the JSON decoding path. -/
inductive JsonErr where
  /-- Go: `required field "type" is missing in %q`, carrying the raw input. -/
  | missingType (input : Json)
  /-- Go: `unrecognized node type %q`, carrying the offending value. -/
  | unknownType (typ : String)
  /-- An `encoding/json` unmarshal type error (a value of the wrong JSON
  kind for the target field), propagated unchanged. -/
  | typeMismatch
  /-- Out of fuel; never produced by the wrappers (see the fuel lemmas). -/
  | outOfFuel
  deriving Repr

/-- `json.Unmarshal` of an optional object field into a Go `string`: an
absent field or a JSON `null` leaves the zero value `""`. -/
def jsonToString : Option Json → Except JsonErr String
  | none => .ok ""
  | some (.str s) => .ok s
  | some .null => .ok ""
  | some _ => .error .typeMismatch

/-- `json.Unmarshal(input, &head)` for `typeHead{Type string}`: reads the
`type` field of an object; `null` leaves the zero value. -/
def headType : Json → Except JsonErr String
  | .null => .ok ""
  | .obj fields => jsonToString (jlookup ("type") fields)
  | _ => .error .typeMismatch

/-- `json.Unmarshal` of an optional object field into a `Name` struct. -/
def jsonToName : Option Json → Except JsonErr Name
  | none => .ok ⟨"", ""⟩
  | some .null => .ok ⟨"", ""⟩
  | some (.obj fields) => do
    let space ← jsonToString (jlookup ("space") fields)
    let locl ← jsonToString (jlookup ("local") fields)
    .ok ⟨space, locl⟩
  | some _ => .error .typeMismatch

/-- `json.Unmarshal` of one JSON array element into an `Attr` struct. -/
def jsonToAttr : Json → Except JsonErr Attr
  | .null => .ok ⟨⟨"", ""⟩, ""⟩
  | .obj fields => do
    let name ← jsonToName (jlookup ("name") fields)
    let value ← jsonToString (jlookup ("value") fields)
    .ok ⟨name, value⟩
  | _ => .error .typeMismatch

/-- `json.Unmarshal` of an optional object field into `[]Attr`: absent or
`null` yields the nil slice. -/
def jsonToAttrs : Option Json → Except JsonErr (List Attr)
  | none => .ok []
  | some .null => .ok []
  | some (.arr elems) => elems.mapM jsonToAttr
  | some _ => .error .typeMismatch

/-- `json.Unmarshal(input, &val)` for `val Pi`: fields `target`, `content`. -/
def jsonToPi : Json → Except JsonErr Node
  | .null => .ok (.pi "" "")
  | .obj fields => do
    let target ← jsonToString (jlookup ("target") fields)
    let content ← jsonToString (jlookup ("content") fields)
    .ok (.pi target content)
  | _ => .error .typeMismatch

/-- Go `jsonUnmarshalContent`: unmarshal `{Content *string}` reading the
`content` field (used by `Decl`, `Comment`, `Text`). -/
def jsonUnmarshalContent : Json → Except JsonErr String
  | .null => .ok ""
  | .obj fields => jsonToString (jlookup ("content") fields)
  | _ => .error .typeMismatch

/-- `Nodes.UnmarshalJSON` parameterized over the element decoder: unmarshal
the field value as `[]nodeDecoder`; an absent field or `null` yields the nil
slice. -/
def jsonToNodesWith (dec : Json → Except JsonErr Node) :
    Option Json → Except JsonErr (List Node)
  | none => .ok []
  | some .null => .ok []
  | some (.arr elems) => elems.mapM dec
  | some _ => .error .typeMismatch

/-- `json.Unmarshal(input, &val)` for `val Elem` (fields `name`, `attrs`,
`nodes`), parameterized over the node decoder used for the `Nodes` field. -/
def jsonToElemWith (dec : Json → Except JsonErr Node) : Json → Except JsonErr Node
  | .null => .ok (.elem ⟨"", ""⟩ [] [])
  | .obj fields => do
    let name ← jsonToName (jlookup ("name") fields)
    let attrs ← jsonToAttrs (jlookup ("attrs") fields)
    let children ← jsonToNodesWith dec (jlookup ("nodes") fields)
    .ok (.elem name attrs children)
  | _ => .error .typeMismatch

/-- Go `nodeDecoder.UnmarshalJSON`, parameterized over the decoder used for
recursive positions. Reads the `type` discriminator first; empty or absent
fails with the missing-discriminator error; then dispatches on the five
recognized discriminators, any other value failing with the
unrecognized-type error. -/
def nodeDecoderDispatch (dec : Json → Except JsonErr Node) (input : Json)
    (typ : String) : Except JsonErr Node :=
  if typ = "" then .error (.missingType input)
  else if typ = TypePi then jsonToPi input
  else if typ = TypeDecl then (jsonUnmarshalContent input).map Node.decl
  else if typ = TypeComment then (jsonUnmarshalContent input).map Node.comment
  else if typ = TypeText then (jsonUnmarshalContent input).map Node.text
  else if typ = TypeElem then jsonToElemWith dec input
  else .error (.unknownType typ)

/-- Go `nodeDecoder.UnmarshalJSON` as head read plus dispatch: a failure of
the head unmarshal propagates, otherwise the discriminator selects the
shape-specific decode. -/
def nodeDecoderBody (dec : Json → Except JsonErr Node) (input : Json) :
    Except JsonErr Node := do
  let typ ← headType input
  nodeDecoderDispatch dec input typ

/-- Go `nodeDecoder.UnmarshalJSON`, fueled: recursive positions (the
`nodes` field of an `elem` object) decode one fuel level down. -/
def decodeNodeF : Nat → Json → Except JsonErr Node
  | 0, _ => .error .outOfFuel
  | fuel + 1, input => nodeDecoderBody (decodeNodeF fuel) input

/-- Go `nodeDecoder.UnmarshalJSON` at its natural fuel. -/
def decodeNodeJson (input : Json) : Except JsonErr Node :=
  decodeNodeF (jsize input) input

/-- Go `Nodes.UnmarshalJSON`: unmarshal the input as `[]nodeDecoder`, each
array element through `nodeDecoder.UnmarshalJSON`; `null` yields the nil
slice. -/
def nodesUnmarshalJSON : Json → Except JsonErr (List Node)
  | .null => .ok []
  | .arr elems => elems.mapM decodeNodeJson
  | _ => .error .typeMismatch

/-! ## JSON metatheory: encode/decode round trip -/

theorem mapM_except_ok {α β ε : Type} {f : α → Except ε β} {g : α → β}
    {xs : List α} (h : ∀ x ∈ xs, f x = .ok (g x)) :
    xs.mapM f = .ok (xs.map g) := by
  induction xs with
  | nil => rfl
  | cons x xs ih =>
    rw [List.mapM_cons, h x (by simp), ih fun y hy => h y (by simp [hy])]
    rfl

theorem jsizeFields_append (a b : List (String × Json)) :
    jsizeFields (a ++ b) = jsizeFields a + jsizeFields b := by
  induction a with
  | nil => simp [jsizeFields]
  | cons f fs ih => simp [jsizeFields, ih]; omega

theorem nodeListMarshalJSON_eq_map (ns : List Node) :
    nodeListMarshalJSON ns = ns.map nodeMarshalJSON := by
  induction ns with
  | nil => rfl
  | cons n ns ih => rw [nodeListMarshalJSON, ih, List.map_cons]

theorem jlookup_strField_self (key v : String) :
    jlookup key (strField key v) = if v = "" then none else some (.str v) := by
  by_cases h : v = "" <;> simp [strField, jlookup, h]

theorem jlookup_strField_ne {key key' : String} (h : key' ≠ key) (v : String) :
    jlookup key (strField key' v) = none := by
  by_cases hv : v = "" <;> simp [strField, jlookup, hv, h]

theorem jlookup_single_ne {key key' : String} (h : key' ≠ key) (v : Json) :
    jlookup key [(key', v)] = none := by
  simp [jlookup, h]

theorem jlookup_single_self (key : String) (v : Json) :
    jlookup key [(key, v)] = some v := by
  simp [jlookup]

theorem jlookup_ite_single_ne {key key' : String} (c : Prop) [Decidable c]
    (h : key' ≠ key) (v : Json) :
    jlookup key (if c then [] else [(key', v)]) = none := by
  split
  · rfl
  · exact jlookup_single_ne h v

/-- Unfolding helper: the wrapper always runs with successor fuel. -/
theorem decodeNodeJson_eq (input : Json) :
    decodeNodeJson input = decodeNodeF (jsize input - 1 + 1) input := by
  have := jsize_pos input
  unfold decodeNodeJson
  congr 1
  omega

theorem except_bind_ok {ε α β : Type} (a : α) (g : α → Except ε β) :
    (Except.ok a : Except ε α) >>= g = g a := rfl

theorem jsonToName_marshal (name : Name) :
    jsonToName (some (nameToJson name)) = .ok name := by
  obtain ⟨s, l⟩ := name
  by_cases hs : s = "" <;> by_cases hl : l = "" <;>
    simp [nameToJson, jsonToName, strField, jlookup, jsonToString, hs, hl, except_bind_ok]

theorem jsonToAttr_marshal (attr : Attr) :
    jsonToAttr (attrToJson attr) = .ok attr := by
  obtain ⟨name, v⟩ := attr
  by_cases hv : v = "" <;>
    simp [attrToJson, jsonToAttr, strField, jlookup, jsonToName_marshal, jsonToString,
      hv, except_bind_ok]

theorem jsonToAttrs_marshal (attrs : List Attr) :
    jsonToAttrs (some (.arr (attrs.map attrToJson))) = .ok attrs := by
  rw [jsonToAttrs]
  induction attrs with
  | nil => rfl
  | cons a as ih =>
    rw [List.map_cons, List.mapM_cons, jsonToAttr_marshal, except_bind_ok, ih,
      except_bind_ok]
    rfl

theorem jsonUnmarshalContent_marshal (typ content : String) :
    jsonUnmarshalContent (jsonMarshalContent typ content) = .ok content := by
  by_cases ht : typ = "" <;> by_cases hc : content = "" <;>
    simp [jsonMarshalContent, jsonUnmarshalContent, strField, jlookup, jsonToString, ht, hc]

theorem headType_marshalContent {typ : String} (h : typ ≠ "") (content : String) :
    headType (jsonMarshalContent typ content) = .ok typ := by
  by_cases hc : content = "" <;>
    simp [jsonMarshalContent, headType, strField, jlookup, jsonToString, h, hc]

theorem headType_piMarshal (target content : String) :
    headType (piMarshalJSON target content) = .ok TypePi := by
  by_cases ht : target = "" <;> by_cases hc : content = "" <;>
    simp [piMarshalJSON, headType, strField, jlookup, jsonToString, TypePi, ht, hc]

theorem jsonToPi_marshal (target content : String) :
    jsonToPi (piMarshalJSON target content) = .ok (.pi target content) := by
  by_cases ht : target = "" <;> by_cases hc : content = "" <;>
    simp [piMarshalJSON, jsonToPi, strField, jlookup, jsonToString, TypePi, ht, hc,
      except_bind_ok]

theorem mapM_decode_marshal {d : Json → Except JsonErr Node} (children : List Node)
    (h : ∀ x ∈ children, d (nodeMarshalJSON x) = .ok x) :
    (children.map nodeMarshalJSON).mapM d = .ok children := by
  induction children with
  | nil => rfl
  | cons x xs ih =>
    rw [List.map_cons, List.mapM_cons, h x (by simp), except_bind_ok,
      ih fun y hy => h y (by simp [hy]), except_bind_ok]
    rfl

theorem isEmpty_false_of_mem {α : Type} {x : α} {xs : List α} (h : x ∈ xs) :
    xs.isEmpty = false := by
  cases xs
  · cases h
  · rfl

/-- Decoding inverts encoding at any sufficient fuel. -/
theorem decodeNodeF_marshal :
    ∀ n fuel, jsize (nodeMarshalJSON n) ≤ fuel →
      decodeNodeF fuel (nodeMarshalJSON n) = .ok n := by
  intro n
  induction n using Node.inductionOn with
  | hpi target content =>
    intro fuel hf
    have h1 := jsize_pos (nodeMarshalJSON (.pi target content))
    obtain ⟨f, rfl⟩ : ∃ f, fuel = f + 1 := ⟨fuel - 1, by omega⟩
    rw [show nodeMarshalJSON (.pi target content) = piMarshalJSON target content from rfl,
      decodeNodeF, nodeDecoderBody, headType_piMarshal, except_bind_ok,
      nodeDecoderDispatch]
    simp [TypePi, jsonToPi_marshal]
  | hdecl content =>
    intro fuel hf
    have h1 := jsize_pos (nodeMarshalJSON (.decl content))
    obtain ⟨f, rfl⟩ : ∃ f, fuel = f + 1 := ⟨fuel - 1, by omega⟩
    rw [show nodeMarshalJSON (.decl content) = jsonMarshalContent TypeDecl content from rfl,
      decodeNodeF, nodeDecoderBody, headType_marshalContent (by decide), except_bind_ok,
      nodeDecoderDispatch]
    simp [TypePi, TypeDecl, jsonUnmarshalContent_marshal, Except.map]
  | hcomment content =>
    intro fuel hf
    have h1 := jsize_pos (nodeMarshalJSON (.comment content))
    obtain ⟨f, rfl⟩ : ∃ f, fuel = f + 1 := ⟨fuel - 1, by omega⟩
    rw [show nodeMarshalJSON (.comment content) = jsonMarshalContent TypeComment content from rfl,
      decodeNodeF, nodeDecoderBody, headType_marshalContent (by decide), except_bind_ok,
      nodeDecoderDispatch]
    simp [TypePi, TypeDecl, TypeComment, jsonUnmarshalContent_marshal, Except.map]
  | htext content =>
    intro fuel hf
    have h1 := jsize_pos (nodeMarshalJSON (.text content))
    obtain ⟨f, rfl⟩ : ∃ f, fuel = f + 1 := ⟨fuel - 1, by omega⟩
    rw [show nodeMarshalJSON (.text content) = jsonMarshalContent TypeText content from rfl,
      decodeNodeF, nodeDecoderBody, headType_marshalContent (by decide), except_bind_ok,
      nodeDecoderDispatch]
    simp [TypePi, TypeDecl, TypeComment, TypeText, jsonUnmarshalContent_marshal, Except.map]
  | helem name attrs children ih =>
    intro fuel hf
    have h1 := jsize_pos (nodeMarshalJSON (.elem name attrs children))
    obtain ⟨f, rfl⟩ : ∃ f, fuel = f + 1 := ⟨fuel - 1, by omega⟩
    rw [nodeMarshalJSON] at hf ⊢
    have hty : headType (Json.obj (strField ("type") TypeElem ++
        [(("name"), nameToJson name)] ++
        (if attrs.isEmpty then [] else [(("attrs"), Json.arr (attrs.map attrToJson))]) ++
        (if children.isEmpty then [] else
          [(("nodes"), Json.arr (nodeListMarshalJSON children))]))) = .ok TypeElem := by
      cases attrs <;> cases children <;>
        simp [headType, strField, jlookup, TypeElem, jsonToString]
    rw [decodeNodeF, nodeDecoderBody, hty, except_bind_ok, nodeDecoderDispatch]
    have hnm : jlookup ("name") (strField ("type") TypeElem ++
        [(("name"), nameToJson name)] ++
        (if attrs.isEmpty then [] else [(("attrs"), Json.arr (attrs.map attrToJson))]) ++
        (if children.isEmpty then [] else
          [(("nodes"), Json.arr (nodeListMarshalJSON children))])) =
        some (nameToJson name) := by
      cases attrs <;> cases children <;> simp [strField, jlookup, TypeElem]
    have hat : jlookup ("attrs") (strField ("type") TypeElem ++
        [(("name"), nameToJson name)] ++
        (if attrs.isEmpty then [] else [(("attrs"), Json.arr (attrs.map attrToJson))]) ++
        (if children.isEmpty then [] else
          [(("nodes"), Json.arr (nodeListMarshalJSON children))])) =
        (if attrs.isEmpty then none else some (Json.arr (attrs.map attrToJson))) := by
      cases attrs <;> cases children <;> simp [strField, jlookup, TypeElem]
    have hno : jlookup ("nodes") (strField ("type") TypeElem ++
        [(("name"), nameToJson name)] ++
        (if attrs.isEmpty then [] else [(("attrs"), Json.arr (attrs.map attrToJson))]) ++
        (if children.isEmpty then [] else
          [(("nodes"), Json.arr (nodeListMarshalJSON children))])) =
        (if children.isEmpty then none else
          some (Json.arr (nodeListMarshalJSON children))) := by
      cases attrs <;> cases children <;> simp [strField, jlookup, TypeElem]
    have hmap : (nodeListMarshalJSON children).mapM (decodeNodeF f) = .ok children := by
      rw [nodeListMarshalJSON_eq_map]
      refine mapM_decode_marshal children fun x hx => ih x hx f ?_
      have hce := isEmpty_false_of_mem hx
      have hb2 : jsize (nodeMarshalJSON x) ≤ jsizeList (nodeListMarshalJSON children) := by
        refine jsize_le_of_mem ?_
        rw [nodeListMarshalJSON_eq_map]
        exact List.mem_map_of_mem nodeMarshalJSON hx
      rw [hce] at hno hf
      simp only [Bool.false_eq_true, if_false, ite_false] at hno hf
      have hb1 := jlookup_jsize hno
      simp only [jsize] at hb1 hf
      omega
    simp only [TypeElem, TypePi, TypeDecl, TypeComment, TypeText] at hnm hat hno ⊢
    simp only [show ((("elem" : String) = "") : Prop) = False from by simp,
      show ((("elem" : String) = "pi") : Prop) = False from by simp,
      show ((("elem" : String) = "decl") : Prop) = False from by simp,
      show ((("elem" : String) = "comment") : Prop) = False from by simp,
      show ((("elem" : String) = "text") : Prop) = False from by simp,
      show ((("elem" : String) = "elem") : Prop) = True from by simp,
      if_false, ite_false, if_true, ite_true]
    rw [jsonToElemWith, hnm, hat, hno, jsonToName_marshal, except_bind_ok]
    rcases hae : attrs.isEmpty with _ | _
    · rcases hce : children.isEmpty with _ | _
      · simp only [Bool.false_eq_true, if_false, ite_false]
        rw [jsonToAttrs_marshal, except_bind_ok, jsonToNodesWith, hmap, except_bind_ok]
      · have hc0 : children = [] := by cases children; rfl; simp at hce
        subst hc0
        simp only [if_true, ite_true, Bool.false_eq_true, if_false, ite_false]
        rw [jsonToAttrs_marshal, except_bind_ok, jsonToNodesWith, except_bind_ok]
    · have ha0 : attrs = [] := by cases attrs; rfl; simp at hae
      subst ha0
      rcases hce : children.isEmpty with _ | _
      · simp only [if_true, ite_true, Bool.false_eq_true, if_false, ite_false]
        rw [show jsonToAttrs none = .ok [] from rfl, except_bind_ok,
          jsonToNodesWith, hmap, except_bind_ok]
      · have hc0 : children = [] := by cases children; rfl; simp at hce
        subst hc0
        simp only [if_true, ite_true]
        rw [show jsonToAttrs none = .ok [] from rfl, except_bind_ok,
          jsonToNodesWith, except_bind_ok]

/-- JSON round trip for a single node. -/
theorem decodeNodeJson_marshal (n : Node) :
    decodeNodeJson (nodeMarshalJSON n) = .ok n :=
  decodeNodeF_marshal n (jsize (nodeMarshalJSON n)) le_rfl

/-- JSON round trip for a whole node sequence. -/
theorem nodesUnmarshalJSON_marshal (ns : List Node) :
    nodesUnmarshalJSON (nodesMarshalJSON ns) = .ok ns := by
  rw [nodesMarshalJSON, nodesUnmarshalJSON, nodeListMarshalJSON_eq_map]
  exact mapM_decode_marshal ns fun x _ => decodeNodeJson_marshal x

/-! ## XML token model

The external token source/sink (`encoding/xml`'s `Decoder` and `Encoder`)
exchanges these tokens. A stream is a list; pulling from an exhausted list
is the clean end-of-stream signal (`io.EOF`). -/

/-- One `xml.Token`. -/
inductive Tok where
  | startElement (name : Name) (attrs : List Attr)
  | endElement (name : Name)
  | charData (content : String)
  | comment (content : String)
  | procInst (target inst : String)
  | directive (content : String)
  deriving Repr, DecidableEq

/-! ## XML encoding

Each `MarshalXML` method returns the tokens it wrote to the encoder before
returning, paired with `none` on success or `some e` when it returned the
error `e`: tokens already emitted before a failure stay visible, so
"produces no output" is expressible. -/

/-- Markup-encoder errors. -/
inductive EncErr where
  /-- Go: `can't encode XML processing instruction with empty target`. -/
  | emptyPiTarget
  /-- Go: `can't XML-encode xt.Elem with empty name`. -/
  | emptyElemName
  deriving Repr, DecidableEq

/-- Go `hasExactAttr`: whether some attribute matches all three of
namespace, local name and value exactly. -/
def hasExactAttr (attrs : List Attr) (space locl value : String) : Bool :=
  attrs.any fun attr =>
    attr.name.space == space && attr.name.local_ == locl && attr.value == value

/-- Go `Pi.MarshalXML`: an empty target fails before any token is emitted;
otherwise one `xml.ProcInst` token is emitted. -/
def piMarshalXML (target content : String) : List Tok × Option EncErr :=
  if target = "" then ([], some .emptyPiTarget)
  else ([.procInst target content], none)

/-- Go `Decl.MarshalXML`: one `xml.Directive` token. -/
def declMarshalXML (content : String) : List Tok × Option EncErr :=
  ([.directive content], none)

/-- Go `Comment.MarshalXML`: one `xml.Comment` token. -/
def commentMarshalXML (content : String) : List Tok × Option EncErr :=
  ([.comment content], none)

/-- Go `Text.MarshalXML`: one `xml.CharData` token. -/
def textMarshalXML (content : String) : List Tok × Option EncErr :=
  ([.charData content], none)

mutual

/-- Markup encoding of one node, dispatching to the `MarshalXML` method of
the stored variant. The `elem` case is Go `Elem.MarshalXML`: an empty local
name fails before emitting anything; otherwise, when the attribute list
contains exactly `(space="", local="xmlns")` with value equal to the
element's own namespace, the tag name's space is cleared for emission only
(the receiver is a copy, so the stored tree keeps its namespace); then
start tag, children in order, and matching end tag are emitted, a child
failure propagating after the tokens already written. -/
def nodeMarshalXML : Node → List Tok × Option EncErr
  | .pi target content => piMarshalXML target content
  | .decl content => declMarshalXML content
  | .comment content => commentMarshalXML content
  | .text content => textMarshalXML content
  | .elem name attrs children =>
    if name.local_ = "" then ([], some .emptyElemName)
    else
      let ename : Name :=
        if hasExactAttr attrs ("") ("xmlns") name.space then ⟨"", name.local_⟩ else name
      match nodesMarshalXML children with
      | (toks, some e) => (.startElement ename attrs :: toks, some e)
      | (toks, none) => (.startElement ename attrs :: (toks ++ [.endElement ename]), none)

/-- Go `Nodes.MarshalXML`: encode each member in order with no wrappers or
separators, stopping at the first failure. -/
def nodesMarshalXML : List Node → List Tok × Option EncErr
  | [] => ([], none)
  | n :: ns =>
    match nodeMarshalXML n with
    | (toks, some e) => (toks, some e)
    | (toks, none) =>
      match nodesMarshalXML ns with
      | (toks2, res) => (toks ++ toks2, res)

end

/-- Go `Elem.MarshalXML` on an element's three fields. -/
def elemMarshalXML (name : Name) (attrs : List Attr) (children : List Node) :
    List Tok × Option EncErr :=
  nodeMarshalXML (.elem name attrs children)

/-- Go `Elem.MarshalJSON` on an element's three fields. -/
def elemMarshalJSON (name : Name) (attrs : List Attr) (children : List Node) :
    Json :=
  nodeMarshalJSON (.elem name attrs children)

/-! ## XML decoding -/

/-- Decoder errors. -/
inductive DecErr where
  /-- Go: `unexpected XML token %#v`, carrying the offending token. -/
  | unexpectedToken (tok : Tok)
  /-- Out of fuel; never produced by the wrappers (see the fuel lemmas). -/
  | outOfFuel
  deriving Repr, DecidableEq

/-- Go `Elem.UnmarshalXML`'s child loop, fueled: pull tokens until
end-of-stream (success) or an element-end token (consumed, success); every
other token is interpreted exactly as `DecodeToken` interprets it
(see `decodeChildrenF_cons`) and appended, in order. Returns the children
together with the unconsumed remainder of the stream. -/
def decodeChildrenF : Nat → List Tok → Except DecErr (List Node × List Tok)
  | _, [] => .ok ([], [])
  | 0, _ :: _ => .error .outOfFuel
  | _ + 1, .endElement _ :: rest => .ok ([], rest)
  | fuel + 1, .procInst target inst :: rest =>
    match decodeChildrenF fuel rest with
    | .error e => .error e
    | .ok (ns, rem) => .ok (.pi target inst :: ns, rem)
  | fuel + 1, .directive content :: rest =>
    match decodeChildrenF fuel rest with
    | .error e => .error e
    | .ok (ns, rem) => .ok (.decl content :: ns, rem)
  | fuel + 1, .comment content :: rest =>
    match decodeChildrenF fuel rest with
    | .error e => .error e
    | .ok (ns, rem) => .ok (.comment content :: ns, rem)
  | fuel + 1, .charData content :: rest =>
    match decodeChildrenF fuel rest with
    | .error e => .error e
    | .ok (ns, rem) => .ok (.text content :: ns, rem)
  | fuel + 1, .startElement name attrs :: rest =>
    match decodeChildrenF fuel rest with
    | .error e => .error e
    | .ok (kids, rest1) =>
      match decodeChildrenF fuel rest1 with
      | .error e => .error e
      | .ok (ns, rem) => .ok (.elem name attrs kids :: ns, rem)

/-- Go `DecodeToken`, fueled: a fixed mapping on the kind of the
already-fetched token. A start-element token recurses into full element
decoding (`dec.DecodeElement`, which runs `Elem.UnmarshalXML`: capture name
and attributes verbatim, then decode children); any other unhandled kind
(only element-end remains) is the `unexpected XML token` error. -/
def decodeTokenF (fuel : Nat) : Tok → List Tok → Except DecErr (Node × List Tok)
  | .procInst target inst, s => .ok (.pi target inst, s)
  | .directive content, s => .ok (.decl content, s)
  | .comment content, s => .ok (.comment content, s)
  | .charData content, s => .ok (.text content, s)
  | .startElement name attrs, s =>
    match decodeChildrenF fuel s with
    | .error e => .error e
    | .ok (kids, rem) => .ok (.elem name attrs kids, rem)
  | .endElement name, _ => .error (.unexpectedToken (.endElement name))

/-- Go `Nodes.Decode`, fueled: pull tokens until end-of-stream (success),
decoding each pulled token via `DecodeToken` and appending in order. -/
def decodeNodesF : Nat → List Tok → Except DecErr (List Node)
  | _, [] => .ok []
  | 0, _ :: _ => .error .outOfFuel
  | fuel + 1, tok :: rest =>
    match decodeTokenF fuel tok rest with
    | .error e => .error e
    | .ok (node, rest1) =>
      match decodeNodesF fuel rest1 with
      | .error e => .error e
      | .ok ns => .ok (node :: ns)

/-- `Elem.UnmarshalXML`'s child loop at its natural fuel. -/
def decodeChildren (s : List Tok) : Except DecErr (List Node × List Tok) :=
  decodeChildrenF s.length s

/-- Go `DecodeToken` at its natural fuel, on an already-fetched token and
the remaining stream. -/
def decodeToken (tok : Tok) (s : List Tok) : Except DecErr (Node × List Tok) :=
  decodeTokenF s.length tok s

/-- Go `Elem.UnmarshalXML`: capture the start token's name and attributes
verbatim, then decode children from the stream. -/
def elemUnmarshalXML (name : Name) (attrs : List Attr) (s : List Tok) :
    Except DecErr (Node × List Tok) :=
  decodeToken (.startElement name attrs) s

/-- Go `Nodes.Decode` at its natural fuel. -/
def decodeNodes (s : List Tok) : Except DecErr (List Node) :=
  decodeNodesF s.length s

/-! ## XML decoder metatheory -/

theorem decodeChildrenF_length :
    ∀ fuel s ns rem, decodeChildrenF fuel s = .ok (ns, rem) → rem.length ≤ s.length := by
  intro fuel
  induction fuel with
  | zero =>
    intro s ns rem h
    cases s with
    | nil =>
      simp only [decodeChildrenF] at h
      cases h
      simp
    | cons tok rest => simp [decodeChildrenF] at h
  | succ fuel ih =>
    intro s ns rem h
    cases s with
    | nil =>
      simp only [decodeChildrenF] at h
      cases h
      simp
    | cons tok rest =>
      cases tok <;> simp only [decodeChildrenF] at h
      case endElement nm =>
        cases h
        simp
      case startElement nm ats =>
        cases h2 : decodeChildrenF fuel rest with
        | error e => simp only [h2] at h; simp at h
        | ok p =>
          obtain ⟨kids, rest1⟩ := p
          simp only [h2] at h
          cases h3 : decodeChildrenF fuel rest1 with
          | error e => simp only [h3] at h; simp at h
          | ok q =>
            obtain ⟨ns2, rem2⟩ := q
            simp only [h3] at h
            cases h
            have b1 := ih rest _ _ h2
            have b2 := ih rest1 _ _ h3
            simp only [List.length_cons]
            omega
      all_goals
        cases h2 : decodeChildrenF fuel rest with
        | error e => simp only [h2] at h; simp at h
        | ok p =>
          obtain ⟨ns2, rem2⟩ := p
          simp only [h2] at h
          cases h
          have b1 := ih rest _ _ h2
          simp only [List.length_cons]
          omega

theorem decodeTokenF_length :
    ∀ fuel tok s n rem, decodeTokenF fuel tok s = .ok (n, rem) → rem.length ≤ s.length := by
  intro fuel tok s n rem h
  cases tok with
  | startElement nm ats =>
    simp only [decodeTokenF] at h
    cases h2 : decodeChildrenF fuel s with
    | error e => simp only [h2] at h; simp at h
    | ok p =>
      obtain ⟨kids, rem2⟩ := p
      simp only [h2] at h
      cases h
      exact decodeChildrenF_length fuel s _ _ h2
  | endElement nm => simp [decodeTokenF] at h
  | charData c =>
    simp only [decodeTokenF] at h
    cases h
    exact le_rfl
  | comment c =>
    simp only [decodeTokenF] at h
    cases h
    exact le_rfl
  | procInst t i =>
    simp only [decodeTokenF] at h
    cases h
    exact le_rfl
  | directive c =>
    simp only [decodeTokenF] at h
    cases h
    exact le_rfl

theorem decodeChildrenF_fuel :
    ∀ fuel fuel2 s, s.length ≤ fuel → s.length ≤ fuel2 →
      decodeChildrenF fuel s = decodeChildrenF fuel2 s := by
  intro fuel
  induction fuel with
  | zero =>
    intro fuel2 s h1 h2
    cases s with
    | nil => cases fuel2 <;> rfl
    | cons tok rest => simp at h1
  | succ fuel ih =>
    intro fuel2 s h1 h2
    cases s with
    | nil => cases fuel2 <;> rfl
    | cons tok rest =>
      obtain ⟨f2, rfl⟩ : ∃ f2, fuel2 = f2 + 1 :=
        ⟨fuel2 - 1, by simp only [List.length_cons] at h2; omega⟩
      have hr : rest.length ≤ fuel := by simp only [List.length_cons] at h1; omega
      have hr2 : rest.length ≤ f2 := by simp only [List.length_cons] at h2; omega
      cases tok <;> simp only [decodeChildrenF]
      case startElement nm ats =>
        rw [ih f2 rest hr hr2]
        cases h3 : decodeChildrenF f2 rest with
        | error e => simp only [h3]
        | ok p =>
          obtain ⟨kids, rest1⟩ := p
          simp only [h3]
          have hb := decodeChildrenF_length f2 rest kids rest1 h3
          rw [ih f2 rest1 (by omega) (by omega)]
      all_goals rw [ih f2 rest hr hr2]

theorem decodeTokenF_fuel :
    ∀ fuel fuel2 tok s, s.length ≤ fuel → s.length ≤ fuel2 →
      decodeTokenF fuel tok s = decodeTokenF fuel2 tok s := by
  intro fuel fuel2 tok s h1 h2
  cases tok <;> simp only [decodeTokenF]
  case startElement nm ats => rw [decodeChildrenF_fuel fuel fuel2 s h1 h2]

theorem decodeNodesF_fuel :
    ∀ fuel fuel2 s, s.length ≤ fuel → s.length ≤ fuel2 →
      decodeNodesF fuel s = decodeNodesF fuel2 s := by
  intro fuel
  induction fuel with
  | zero =>
    intro fuel2 s h1 h2
    cases s with
    | nil => cases fuel2 <;> rfl
    | cons tok rest => simp at h1
  | succ fuel ih =>
    intro fuel2 s h1 h2
    cases s with
    | nil => cases fuel2 <;> rfl
    | cons tok rest =>
      obtain ⟨f2, rfl⟩ : ∃ f2, fuel2 = f2 + 1 :=
        ⟨fuel2 - 1, by simp only [List.length_cons] at h2; omega⟩
      have hr : rest.length ≤ fuel := by simp only [List.length_cons] at h1; omega
      have hr2 : rest.length ≤ f2 := by simp only [List.length_cons] at h2; omega
      simp only [decodeNodesF]
      rw [decodeTokenF_fuel fuel f2 tok rest hr hr2]
      cases h3 : decodeTokenF f2 tok rest with
      | error e => simp only [h3]
      | ok p =>
        obtain ⟨node, rest1⟩ := p
        simp only [h3]
        have hb := decodeTokenF_length f2 tok rest node rest1 h3
        rw [ih f2 rest1 (by omega) (by omega)]

/-- The child loop interprets every non-end token exactly as `DecodeToken`
does (Go: `Elem.UnmarshalXML` calls `self.Nodes.DecodeToken(dec, tok)`). -/
theorem decodeChildrenF_cons (fuel : Nat) (tok : Tok) (rest : List Tok)
    (hne : ∀ name, tok ≠ .endElement name) :
    decodeChildrenF (fuel + 1) (tok :: rest) =
      match decodeTokenF fuel tok rest with
      | .error e => .error e
      | .ok (node, rest1) =>
        match decodeChildrenF fuel rest1 with
        | .error e => .error e
        | .ok (ns, rem) => .ok (node :: ns, rem) := by
  cases tok
  case endElement name => exact absurd rfl (hne name)
  case startElement name ats =>
    simp only [decodeChildrenF, decodeTokenF]
    cases h2 : decodeChildrenF fuel rest with
    | error e => rfl
    | ok p =>
      obtain ⟨kids, rest1⟩ := p
      cases h3 : decodeChildrenF fuel rest1 with
      | error e => rfl
      | ok q =>
        obtain ⟨ns, rem⟩ := q
        rfl
  all_goals simp only [decodeChildrenF, decodeTokenF]

/-- A successful decode that did not exhaust the stream is insensitive to
extending the stream and to raising fuel: it consumes the same tokens and
produces the same children. -/
theorem decodeChildrenF_extend :
    ∀ fuel fuel2 s ns rem ext, fuel ≤ fuel2 →
      decodeChildrenF fuel s = .ok (ns, rem) → rem ≠ [] →
      decodeChildrenF fuel2 (s ++ ext) = .ok (ns, rem ++ ext) := by
  intro fuel
  induction fuel with
  | zero =>
    intro fuel2 s ns rem ext hle h hne
    cases s with
    | nil =>
      simp only [decodeChildrenF] at h
      cases h
      exact absurd rfl hne
    | cons tok rest => simp [decodeChildrenF] at h
  | succ fuel ih =>
    intro fuel2 s ns rem ext hle h hne
    obtain ⟨f2, rfl⟩ : ∃ f2, fuel2 = f2 + 1 := ⟨fuel2 - 1, by omega⟩
    have hle2 : fuel ≤ f2 := by omega
    cases s with
    | nil =>
      simp only [decodeChildrenF] at h
      cases h
      exact absurd rfl hne
    | cons tok rest =>
      rw [List.cons_append]
      cases tok <;> simp only [decodeChildrenF] at h ⊢
      case endElement name =>
        cases h
        rfl
      case startElement name ats =>
        cases h2 : decodeChildrenF fuel rest with
        | error e => simp only [h2] at h; simp at h
        | ok p =>
          obtain ⟨kids, rest1⟩ := p
          simp only [h2] at h
          cases h3 : decodeChildrenF fuel rest1 with
          | error e => simp only [h3] at h; simp at h
          | ok q =>
            obtain ⟨ns2, rem2⟩ := q
            simp only [h3] at h
            cases h
            have hr1 : rest1 ≠ [] := by
              intro hcon
              subst hcon
              have h0 := decodeChildrenF_length fuel [] _ _ h3
              simp at h0
              exact hne h0
            simp only [ih f2 rest kids rest1 ext hle2 h2 hr1,
              ih f2 rest1 ns2 rem ext hle2 h3 hne]
      all_goals
        cases h2 : decodeChildrenF fuel rest with
        | error e => simp only [h2] at h; simp at h
        | ok p =>
          obtain ⟨ns2, rem2⟩ := p
          simp only [h2] at h
          cases h
          simp only [ih f2 rest ns2 rem ext hle2 h2 hne]

/-- Appending a matching element-end token to a stream that the child loop
consumed to the end changes nothing about the children produced: the end
token is either absorbed as the terminator of the innermost open element or
left over for the caller. -/
theorem decodeChildrenF_absorb :
    ∀ fuel s ns name, decodeChildrenF fuel s = .ok (ns, []) →
      decodeChildrenF (fuel + 1) (s ++ [.endElement name]) = .ok (ns, []) ∨
      decodeChildrenF (fuel + 1) (s ++ [.endElement name]) =
        .ok (ns, [.endElement name]) := by
  intro fuel
  induction fuel with
  | zero =>
    intro s ns name h
    cases s with
    | nil =>
      simp only [decodeChildrenF] at h
      cases h
      left
      rfl
    | cons tok rest => simp [decodeChildrenF] at h
  | succ fuel ih =>
    intro s ns name h
    cases s with
    | nil =>
      simp only [decodeChildrenF] at h
      cases h
      left
      rfl
    | cons tok rest =>
      rw [List.cons_append]
      cases tok <;> simp only [decodeChildrenF] at h ⊢
      case endElement nm =>
        cases h
        right
        rfl
      case startElement nm ats =>
        cases h2 : decodeChildrenF fuel rest with
        | error e => simp only [h2] at h; simp at h
        | ok p =>
          obtain ⟨kids, rest1⟩ := p
          simp only [h2] at h
          cases h3 : decodeChildrenF fuel rest1 with
          | error e => simp only [h3] at h; simp at h
          | ok q =>
            obtain ⟨ns2, rem2⟩ := q
            simp only [h3] at h
            cases h
            by_cases hr : rest1 = []
            · subst hr
              simp only [decodeChildrenF] at h3
              cases h3
              rcases ih rest kids name h2 with h4 | h4
              · left
                simp only [h4, decodeChildrenF]
              · left
                simp only [h4, decodeChildrenF]
            · have hext := decodeChildrenF_extend fuel (fuel + 1) rest kids rest1
                [.endElement name] (by omega) h2 hr
              rcases ih rest1 ns2 name h3 with h4 | h4
              · left
                simp only [hext, h4]
              · right
                simp only [hext, h4]
      all_goals
        cases h2 : decodeChildrenF fuel rest with
        | error e => simp only [h2] at h; simp at h
        | ok p =>
          obtain ⟨ns2, rem2⟩ := p
          simp only [h2] at h
          cases h
          rcases ih rest ns2 name h2 with h4 | h4
          · left
            simp only [h4]
          · right
            simp only [h4]

/-- End-of-stream while decoding an element's children behaves exactly as a
matching element-end token would, at the wrapper level. -/
theorem decodeChildren_absorb (s : List Tok) (ns : List Node) (name : Name)
    (h : decodeChildren s = .ok (ns, [])) :
    decodeChildren (s ++ [.endElement name]) = .ok (ns, []) ∨
    decodeChildren (s ++ [.endElement name]) = .ok (ns, [.endElement name]) := by
  have key := decodeChildrenF_absorb s.length s ns name h
  rw [decodeChildren]
  simpa [List.length_append] using key

/-! ## XML encode/decode round trip

Validity predicate for the round trip: processing instructions need
non-empty targets and elements need non-empty local names (the encoder
rejects the rest), and no element triggers namespace-attribute suppression
with a non-empty namespace (the one stated normalization, which clears the
tag name's space on re-encode). -/

mutual

/-- A node the markup encoder accepts and reproduces exactly. -/
def xmlEncodable : Node → Bool
  | .pi target _ => target != ""
  | .decl _ => true
  | .comment _ => true
  | .text _ => true
  | .elem name attrs children =>
    name.local_ != "" &&
      (name.space == "" || !hasExactAttr attrs ("") ("xmlns") name.space) &&
      xmlEncodableList children

/-- `xmlEncodable` over a node list. -/
def xmlEncodableList : List Node → Bool
  | [] => true
  | n :: ns => xmlEncodable n && xmlEncodableList ns

end

/-- The round-trip property of a single node: its markup encoding succeeds,
starts with a non-end token, and decoding that token against the remaining
emitted tokens (plus any continuation) returns exactly the node, leaving
the continuation unconsumed. -/
def XmlRT (n : Node) : Prop :=
  xmlEncodable n = true →
    ∃ tok toks, nodeMarshalXML n = (tok :: toks, none) ∧
      (∀ name, tok ≠ .endElement name) ∧
      ∀ ext fuel, (toks ++ ext).length ≤ fuel →
        decodeTokenF fuel tok (toks ++ ext) = .ok (n, ext)

theorem nodesMarshalXML_decode_children (children : List Node)
    (hP : ∀ x ∈ children, XmlRT x) (henc : xmlEncodableList children = true) :
    ∃ toks, nodesMarshalXML children = (toks, none) ∧
      ∀ name ext fuel, (toks ++ .endElement name :: ext).length ≤ fuel →
        decodeChildrenF fuel (toks ++ .endElement name :: ext) = .ok (children, ext) := by
  induction children with
  | nil =>
    refine ⟨[], rfl, fun name ext fuel hf => ?_⟩
    obtain ⟨f, rfl⟩ : ∃ f, fuel = f + 1 := ⟨fuel - 1, by simp at hf; omega⟩
    simp only [List.nil_append, decodeChildrenF]
  | cons x xs ih =>
    rw [xmlEncodableList, Bool.and_eq_true] at henc
    obtain ⟨tok, toks, henc1, hne, hdec⟩ := hP x (by simp) henc.1
    obtain ⟨toks2, henc2, hdec2⟩ := ih (fun y hy => hP y (by simp [hy])) henc.2
    refine ⟨tok :: (toks ++ toks2), ?_, ?_⟩
    · simp only [nodesMarshalXML, henc1, henc2, List.cons_append]
    · intro name ext fuel hf
      obtain ⟨f, rfl⟩ : ∃ f, fuel = f + 1 := ⟨fuel - 1, by simp at hf; omega⟩
      rw [show (tok :: (toks ++ toks2)) ++ .endElement name :: ext =
        tok :: (toks ++ (toks2 ++ .endElement name :: ext)) by simp]
      rw [decodeChildrenF_cons f tok (toks ++ (toks2 ++ .endElement name :: ext)) hne]
      have hfa : (toks ++ (toks2 ++ .endElement name :: ext)).length ≤ f := by
        simp only [List.length_append, List.length_cons] at hf ⊢
        omega
      have hfb : (toks2 ++ .endElement name :: ext).length ≤ f := by
        simp only [List.length_append, List.length_cons] at hf ⊢
        omega
      simp only [hdec (toks2 ++ .endElement name :: ext) f hfa,
        hdec2 name ext f hfb]

theorem nodeMarshalXML_decode : ∀ n, XmlRT n := by
  intro n
  induction n using Node.inductionOn with
  | hpi target content =>
    intro hE
    rw [xmlEncodable, bne_iff_ne] at hE
    refine ⟨.procInst target content, [], ?_, by simp, fun ext fuel hf => ?_⟩
    · simp [nodeMarshalXML, piMarshalXML, hE]
    · simp only [List.nil_append, decodeTokenF]
  | hdecl content =>
    intro hE
    exact ⟨.directive content, [], rfl, by simp, fun ext fuel hf => by
      simp only [List.nil_append, decodeTokenF]⟩
  | hcomment content =>
    intro hE
    exact ⟨.comment content, [], rfl, by simp, fun ext fuel hf => by
      simp only [List.nil_append, decodeTokenF]⟩
  | htext content =>
    intro hE
    exact ⟨.charData content, [], rfl, by simp, fun ext fuel hf => by
      simp only [List.nil_append, decodeTokenF]⟩
  | helem name attrs children ih =>
    intro hE
    rw [xmlEncodable, Bool.and_eq_true, Bool.and_eq_true] at hE
    obtain ⟨⟨hloc, hsup⟩, hkids⟩ := hE
    rw [bne_iff_ne] at hloc
    obtain ⟨toks2, henc2, hdec2⟩ :=
      nodesMarshalXML_decode_children children ih hkids
    have hename :
        (if hasExactAttr attrs ("") ("xmlns") name.space then
          (⟨"", name.local_⟩ : Name) else name) = name := by
      by_cases hha : hasExactAttr attrs ("") ("xmlns") name.space = true
      · have hsp : name.space = "" := by
          simp only [hha, Bool.not_true, Bool.or_false, beq_iff_eq] at hsup
          exact hsup
        rw [if_pos hha]
        obtain ⟨s, l⟩ := name
        simp only at hsp
        subst hsp
        rfl
      · rw [if_neg hha]
    refine ⟨.startElement name attrs, toks2 ++ [.endElement name], ?_, by simp,
      fun ext fuel hf => ?_⟩
    · rw [show nodeMarshalXML (.elem name attrs children) =
        elemMarshalXML name attrs children from rfl]
      rw [elemMarshalXML, nodeMarshalXML, if_neg hloc]
      simp only [hename, henc2]
    · rw [show (toks2 ++ [.endElement name]) ++ ext =
        toks2 ++ .endElement name :: ext by simp]
      have hfb : (toks2 ++ .endElement name :: ext).length ≤ fuel := by
        simp only [List.length_append, List.length_cons] at hf ⊢
        omega
      simp only [decodeTokenF, hdec2 name ext fuel hfb]

/-- XML round trip: markup-encoding an encodable node sequence succeeds and
decoding the emitted token stream returns exactly the same sequence, in
order. -/
theorem decodeNodes_marshalXML (ns : List Node) (h : xmlEncodableList ns = true) :
    ∃ toks, nodesMarshalXML ns = (toks, none) ∧ decodeNodes toks = .ok ns := by
  have key : ∀ ms, xmlEncodableList ms = true →
      ∃ toks, nodesMarshalXML ms = (toks, none) ∧
        ∀ fuel, toks.length ≤ fuel → decodeNodesF fuel toks = .ok ms := by
    intro ms
    induction ms with
    | nil => exact fun _ => ⟨[], rfl, fun fuel _ => by cases fuel <;> rfl⟩
    | cons x xs ih =>
      intro hh
      rw [xmlEncodableList, Bool.and_eq_true] at hh
      obtain ⟨tok, toks, henc1, hne, hdec⟩ := nodeMarshalXML_decode x hh.1
      obtain ⟨toks2, henc2, hdec2⟩ := ih hh.2
      refine ⟨tok :: (toks ++ toks2), ?_, fun fuel hf => ?_⟩
      · simp only [nodesMarshalXML, henc1, henc2, List.cons_append]
      · obtain ⟨f, rfl⟩ : ∃ f, fuel = f + 1 := ⟨fuel - 1, by simp at hf; omega⟩
        have hfa : (toks ++ toks2).length ≤ f := by
          simp only [List.length_append] at hf ⊢
          simp only [List.length_cons, List.length_append] at hf
          omega
        have hfb : toks2.length ≤ f := by
          simp only [List.length_cons, List.length_append] at hf
          omega
        rw [decodeNodesF]
        simp only [hdec toks2 f hfa, hdec2 f hfb]
  obtain ⟨toks, henc, hdec⟩ := key ns h
  exact ⟨toks, henc, hdec toks.length le_rfl⟩

/-! ## JSON decoder dispatch lemmas -/

theorem except_bind_error {ε α β : Type} (e : ε) (g : α → Except ε β) :
    (Except.error e : Except ε α) >>= g = .error e := rfl

theorem decodeNodeJson_obj (fields : List (String × Json)) :
    decodeNodeJson (.obj fields) =
      nodeDecoderBody (decodeNodeF (jsize (.obj fields) - 1)) (.obj fields) := by
  rw [decodeNodeJson_eq, decodeNodeF]

theorem decodeNodeJson_typ (fields : List (String × Json)) {typ : String}
    (h : jlookup ("type") fields = some (.str typ)) :
    decodeNodeJson (.obj fields) =
      nodeDecoderDispatch (decodeNodeF (jsize (.obj fields) - 1)) (.obj fields) typ := by
  rw [decodeNodeJson_obj, nodeDecoderBody]
  simp only [headType, h, jsonToString, except_bind_ok]

/-- Discriminator `pi` always dispatches to the `Pi` shape decode. -/
theorem decodeNodeJson_obj_pi (fields : List (String × Json))
    (h : jlookup ("type") fields = some (.str TypePi)) :
    decodeNodeJson (.obj fields) = jsonToPi (.obj fields) := by
  rw [decodeNodeJson_typ fields h, nodeDecoderDispatch]
  simp [TypePi]

/-- Discriminator `decl` always dispatches to the `Decl` shape decode. -/
theorem decodeNodeJson_obj_decl (fields : List (String × Json))
    (h : jlookup ("type") fields = some (.str TypeDecl)) :
    decodeNodeJson (.obj fields) =
      (jsonUnmarshalContent (.obj fields)).map Node.decl := by
  rw [decodeNodeJson_typ fields h, nodeDecoderDispatch]
  simp [TypePi, TypeDecl]

/-- Discriminator `comment` always dispatches to the `Comment` shape decode. -/
theorem decodeNodeJson_obj_comment (fields : List (String × Json))
    (h : jlookup ("type") fields = some (.str TypeComment)) :
    decodeNodeJson (.obj fields) =
      (jsonUnmarshalContent (.obj fields)).map Node.comment := by
  rw [decodeNodeJson_typ fields h, nodeDecoderDispatch]
  simp [TypePi, TypeDecl, TypeComment]

/-- Discriminator `text` always dispatches to the `Text` shape decode. -/
theorem decodeNodeJson_obj_text (fields : List (String × Json))
    (h : jlookup ("type") fields = some (.str TypeText)) :
    decodeNodeJson (.obj fields) =
      (jsonUnmarshalContent (.obj fields)).map Node.text := by
  rw [decodeNodeJson_typ fields h, nodeDecoderDispatch]
  simp [TypePi, TypeDecl, TypeComment, TypeText]

/-- Discriminator `elem` always dispatches to the `Elem` shape decode. -/
theorem decodeNodeJson_obj_elem (fields : List (String × Json))
    (h : jlookup ("type") fields = some (.str TypeElem)) :
    decodeNodeJson (.obj fields) =
      jsonToElemWith (decodeNodeF (jsize (.obj fields) - 1)) (.obj fields) := by
  rw [decodeNodeJson_typ fields h, nodeDecoderDispatch]
  simp [TypePi, TypeDecl, TypeComment, TypeText, TypeElem]

/-- An unrecognized non-empty discriminator always fails with the
unrecognized-node-type error naming the value. -/
theorem decodeNodeJson_obj_unknown (fields : List (String × Json)) {typ : String}
    (h : jlookup ("type") fields = some (.str typ)) (h0 : typ ≠ "")
    (h1 : typ ≠ TypePi) (h2 : typ ≠ TypeDecl) (h3 : typ ≠ TypeComment)
    (h4 : typ ≠ TypeText) (h5 : typ ≠ TypeElem) :
    decodeNodeJson (.obj fields) = .error (.unknownType typ) := by
  rw [decodeNodeJson_typ fields h, nodeDecoderDispatch, if_neg h0, if_neg h1,
    if_neg h2, if_neg h3, if_neg h4, if_neg h5]

/-- An object without a `type` field always fails with the
missing-discriminator error quoting the raw input. -/
theorem decodeNodeJson_obj_missing (fields : List (String × Json))
    (h : jlookup ("type") fields = none) :
    decodeNodeJson (.obj fields) = .error (.missingType (.obj fields)) := by
  rw [decodeNodeJson_obj, nodeDecoderBody]
  simp only [headType, h, jsonToString, except_bind_ok]
  rw [nodeDecoderDispatch, if_pos rfl]

/-- An object whose `type` field holds the empty string fails with the same
missing-discriminator error as an absent field. -/
theorem decodeNodeJson_obj_empty_typ (fields : List (String × Json))
    (h : jlookup ("type") fields = some (.str "")) :
    decodeNodeJson (.obj fields) = .error (.missingType (.obj fields)) := by
  rw [decodeNodeJson_typ fields h, nodeDecoderDispatch, if_pos rfl]

/-- A successful `Pi` shape decode only ever produces a `pi` node. -/
theorem jsonToPi_shape {input : Json} {n : Node} (h : jsonToPi input = .ok n) :
    ∃ target content, n = .pi target content := by
  cases input <;> simp only [jsonToPi] at h
  case null =>
    cases h
    exact ⟨"", "", rfl⟩
  case obj fields =>
    cases h1 : jsonToString (jlookup ("target") fields) with
    | error e => simp only [h1, except_bind_error] at h; simp at h
    | ok target =>
      simp only [h1, except_bind_ok] at h
      cases h2 : jsonToString (jlookup ("content") fields) with
      | error e => simp only [h2, except_bind_error] at h; simp at h
      | ok content =>
        simp only [h2, except_bind_ok] at h
        cases h
        exact ⟨target, content, rfl⟩
  all_goals simp at h

/-- A successful content-shape decode only ever produces the mapped node. -/
theorem jsonUnmarshalContent_map_shape {f : String → Node} {input : Json} {n : Node}
    (h : (jsonUnmarshalContent input).map f = .ok n) : ∃ content, n = f content := by
  cases h2 : jsonUnmarshalContent input with
  | error e => rw [h2] at h; simp [Except.map] at h
  | ok content =>
    rw [h2] at h
    simp only [Except.map] at h
    cases h
    exact ⟨content, rfl⟩

/-- A successful `Elem` shape decode only ever produces an `elem` node. -/
theorem jsonToElemWith_shape {dec : Json → Except JsonErr Node} {input : Json}
    {n : Node} (h : jsonToElemWith dec input = .ok n) :
    ∃ name attrs children, n = .elem name attrs children := by
  cases input <;> simp only [jsonToElemWith] at h
  case null =>
    cases h
    exact ⟨⟨"", ""⟩, [], [], rfl⟩
  case obj fields =>
    cases h1 : jsonToName (jlookup ("name") fields) with
    | error e => simp only [h1, except_bind_error] at h; simp at h
    | ok name =>
      simp only [h1, except_bind_ok] at h
      cases h2 : jsonToAttrs (jlookup ("attrs") fields) with
      | error e => simp only [h2, except_bind_error] at h; simp at h
      | ok attrs =>
        simp only [h2, except_bind_ok] at h
        cases h3 : jsonToNodesWith dec (jlookup ("nodes") fields) with
        | error e => simp only [h3, except_bind_error] at h; simp at h
        | ok children =>
          simp only [h3, except_bind_ok] at h
          cases h
          exact ⟨name, attrs, children, rfl⟩
  all_goals simp at h

/-! ## Fully explicit JSON encoding

A statement device for the omit-if-empty policy: the same wire shapes as
`nodeMarshalJSON` but with every omissible field present even when empty.
Decoding it must agree with decoding the omitting encoder's output. -/

/-- `Name` with both fields always present. -/
def nameToJsonFull (name : Name) : Json :=
  .obj [(("space"), .str name.space), (("local"), .str name.local_)]

/-- `Attr` with both fields always present. -/
def attrToJsonFull (attr : Attr) : Json :=
  .obj [(("name"), nameToJsonFull attr.name), (("value"), .str attr.value)]

mutual

/-- A node's tagged JSON object with every field present, empty or not. -/
def nodeMarshalJSONFull : Node → Json
  | .pi target content =>
    .obj [(("type"), .str TypePi), (("target"), .str target),
      (("content"), .str content)]
  | .decl content => .obj [(("type"), .str TypeDecl), (("content"), .str content)]
  | .comment content =>
    .obj [(("type"), .str TypeComment), (("content"), .str content)]
  | .text content => .obj [(("type"), .str TypeText), (("content"), .str content)]
  | .elem name attrs children =>
    .obj [(("type"), .str TypeElem), (("name"), nameToJsonFull name),
      (("attrs"), .arr (attrs.map attrToJsonFull)),
      (("nodes"), .arr (nodeListMarshalJSONFull children))]

/-- `nodeMarshalJSONFull` over a node list. -/
def nodeListMarshalJSONFull : List Node → List Json
  | [] => []
  | n :: ns => nodeMarshalJSONFull n :: nodeListMarshalJSONFull ns

end

theorem nodeListMarshalJSONFull_eq_map (ns : List Node) :
    nodeListMarshalJSONFull ns = ns.map nodeMarshalJSONFull := by
  induction ns with
  | nil => rfl
  | cons n ns ih => rw [nodeListMarshalJSONFull, ih, List.map_cons]

theorem jsonToName_marshalFull (name : Name) :
    jsonToName (some (nameToJsonFull name)) = .ok name := by
  obtain ⟨s, l⟩ := name
  simp [nameToJsonFull, jsonToName, jlookup, jsonToString, except_bind_ok]

theorem jsonToAttr_marshalFull (attr : Attr) :
    jsonToAttr (attrToJsonFull attr) = .ok attr := by
  obtain ⟨nm, v⟩ := attr
  simp [attrToJsonFull, jsonToAttr, jlookup, jsonToName_marshalFull, jsonToString,
    except_bind_ok]

theorem jsonToAttrs_marshalFull (attrs : List Attr) :
    jsonToAttrs (some (.arr (attrs.map attrToJsonFull))) = .ok attrs := by
  rw [jsonToAttrs]
  induction attrs with
  | nil => rfl
  | cons a as ih =>
    rw [List.map_cons, List.mapM_cons, jsonToAttr_marshalFull, except_bind_ok, ih,
      except_bind_ok]
    rfl

theorem mapM_decode_enc {enc : Node → Json} {d : Json → Except JsonErr Node}
    (children : List Node) (h : ∀ x ∈ children, d (enc x) = .ok x) :
    (children.map enc).mapM d = .ok children := by
  induction children with
  | nil => rfl
  | cons x xs ih =>
    rw [List.map_cons, List.mapM_cons, h x (by simp), except_bind_ok,
      ih fun y hy => h y (by simp [hy]), except_bind_ok]
    rfl

/-- Decoding inverts the fully explicit encoding at any sufficient fuel. -/
theorem decodeNodeF_marshalFull :
    ∀ n fuel, jsize (nodeMarshalJSONFull n) ≤ fuel →
      decodeNodeF fuel (nodeMarshalJSONFull n) = .ok n := by
  intro n
  induction n using Node.inductionOn with
  | hpi target content =>
    intro fuel hf
    have h1 := jsize_pos (nodeMarshalJSONFull (.pi target content))
    obtain ⟨f, rfl⟩ : ∃ f, fuel = f + 1 := ⟨fuel - 1, by omega⟩
    rw [nodeMarshalJSONFull, decodeNodeF, nodeDecoderBody]
    simp [headType, jlookup, jsonToString, except_bind_ok, nodeDecoderDispatch,
      TypePi, jsonToPi]
  | hdecl content =>
    intro fuel hf
    have h1 := jsize_pos (nodeMarshalJSONFull (.decl content))
    obtain ⟨f, rfl⟩ : ∃ f, fuel = f + 1 := ⟨fuel - 1, by omega⟩
    rw [nodeMarshalJSONFull, decodeNodeF, nodeDecoderBody]
    simp [headType, jlookup, jsonToString, except_bind_ok, nodeDecoderDispatch,
      TypePi, TypeDecl, jsonUnmarshalContent, Except.map]
  | hcomment content =>
    intro fuel hf
    have h1 := jsize_pos (nodeMarshalJSONFull (.comment content))
    obtain ⟨f, rfl⟩ : ∃ f, fuel = f + 1 := ⟨fuel - 1, by omega⟩
    rw [nodeMarshalJSONFull, decodeNodeF, nodeDecoderBody]
    simp [headType, jlookup, jsonToString, except_bind_ok, nodeDecoderDispatch,
      TypePi, TypeDecl, TypeComment, jsonUnmarshalContent, Except.map]
  | htext content =>
    intro fuel hf
    have h1 := jsize_pos (nodeMarshalJSONFull (.text content))
    obtain ⟨f, rfl⟩ : ∃ f, fuel = f + 1 := ⟨fuel - 1, by omega⟩
    rw [nodeMarshalJSONFull, decodeNodeF, nodeDecoderBody]
    simp [headType, jlookup, jsonToString, except_bind_ok, nodeDecoderDispatch,
      TypePi, TypeDecl, TypeComment, TypeText, jsonUnmarshalContent, Except.map]
  | helem name attrs children ih =>
    intro fuel hf
    have h1 := jsize_pos (nodeMarshalJSONFull (.elem name attrs children))
    obtain ⟨f, rfl⟩ : ∃ f, fuel = f + 1 := ⟨fuel - 1, by omega⟩
    rw [nodeMarshalJSONFull] at hf ⊢
    have hty : jlookup ("type") [(("type"), Json.str TypeElem),
        (("name"), nameToJsonFull name),
        (("attrs"), Json.arr (attrs.map attrToJsonFull)),
        (("nodes"), Json.arr (nodeListMarshalJSONFull children))] =
        some (.str TypeElem) := by
      simp [jlookup]
    have hnm : jlookup ("name") [(("type"), Json.str TypeElem),
        (("name"), nameToJsonFull name),
        (("attrs"), Json.arr (attrs.map attrToJsonFull)),
        (("nodes"), Json.arr (nodeListMarshalJSONFull children))] =
        some (nameToJsonFull name) := by
      simp [jlookup]
    have hat : jlookup ("attrs") [(("type"), Json.str TypeElem),
        (("name"), nameToJsonFull name),
        (("attrs"), Json.arr (attrs.map attrToJsonFull)),
        (("nodes"), Json.arr (nodeListMarshalJSONFull children))] =
        some (.arr (attrs.map attrToJsonFull)) := by
      simp [jlookup]
    have hno : jlookup ("nodes") [(("type"), Json.str TypeElem),
        (("name"), nameToJsonFull name),
        (("attrs"), Json.arr (attrs.map attrToJsonFull)),
        (("nodes"), Json.arr (nodeListMarshalJSONFull children))] =
        some (.arr (nodeListMarshalJSONFull children)) := by
      simp [jlookup]
    have hmap : (nodeListMarshalJSONFull children).mapM (decodeNodeF f) = .ok children := by
      rw [nodeListMarshalJSONFull_eq_map]
      refine mapM_decode_enc children fun x hx => ih x hx f ?_
      have hb1 := jlookup_jsize hno
      have hb2 : jsize (nodeMarshalJSONFull x) ≤
          jsizeList (nodeListMarshalJSONFull children) := by
        refine jsize_le_of_mem ?_
        rw [nodeListMarshalJSONFull_eq_map]
        exact List.mem_map_of_mem nodeMarshalJSONFull hx
      simp only [jsize] at hb1 hf
      omega
    rw [decodeNodeF, nodeDecoderBody]
    simp only [headType, hty, jsonToString, except_bind_ok, nodeDecoderDispatch]
    simp only [show ((TypeElem = "") : Prop) = False from by simp [TypeElem],
      show ((TypeElem = TypePi) : Prop) = False from by simp [TypeElem, TypePi],
      show ((TypeElem = TypeDecl) : Prop) = False from by simp [TypeElem, TypeDecl],
      show ((TypeElem = TypeComment) : Prop) = False from by simp [TypeElem, TypeComment],
      show ((TypeElem = TypeText) : Prop) = False from by simp [TypeElem, TypeText],
      show ((TypeElem = TypeElem) : Prop) = True from by simp,
      if_false, ite_false, if_true, ite_true]
    rw [jsonToElemWith, hnm, hat, hno, jsonToName_marshalFull, except_bind_ok,
      jsonToAttrs_marshalFull, except_bind_ok, jsonToNodesWith, hmap, except_bind_ok]

/-- Decoding the fully explicit encoding yields the original node, so a
field decodes the same whether absent or present-and-empty. -/
theorem decodeNodeJson_marshalFull (n : Node) :
    decodeNodeJson (nodeMarshalJSONFull n) = .ok n :=
  decodeNodeF_marshalFull n (jsize (nodeMarshalJSONFull n)) le_rfl

/-- Membership in a `strField` singleton pins down the value. -/
theorem mem_strField {kv : String × Json} {key v : String}
    (h : kv ∈ strField key v) : kv.2 = .str v ∧ v ≠ "" := by
  rw [strField] at h
  by_cases hv : v = ""
  · rw [if_pos hv] at h
    cases h
  · rw [if_neg hv] at h
    rcases List.mem_singleton.mp h with rfl
    exact ⟨rfl, hv⟩

/-- Every field that the omitting JSON encoder emits is non-empty: no value
is the empty string and none is the empty array. -/
theorem nodeMarshalJSON_no_empty_fields (n : Node) (fields : List (String × Json))
    (hobj : nodeMarshalJSON n = .obj fields) :
    ∀ kv ∈ fields, kv.2 ≠ .str "" ∧ kv.2 ≠ .arr [] := by
  cases n with
  | pi target content =>
    rw [show nodeMarshalJSON (.pi target content) = piMarshalJSON target content
      from rfl, piMarshalJSON] at hobj
    cases hobj
    intro kv hkv
    rcases List.mem_append.mp hkv with hkv | hkv
    · rcases List.mem_append.mp hkv with hkv | hkv
      all_goals
        obtain ⟨he, hne⟩ := mem_strField hkv
        rw [he]
        exact ⟨by simp [hne], by simp⟩
    · obtain ⟨he, hne⟩ := mem_strField hkv
      rw [he]
      exact ⟨by simp [hne], by simp⟩
  | decl content =>
    rw [show nodeMarshalJSON (.decl content) = jsonMarshalContent TypeDecl content
      from rfl, jsonMarshalContent] at hobj
    cases hobj
    intro kv hkv
    rcases List.mem_append.mp hkv with hkv | hkv
    all_goals
      obtain ⟨he, hne⟩ := mem_strField hkv
      rw [he]
      exact ⟨by simp [hne], by simp⟩
  | comment content =>
    rw [show nodeMarshalJSON (.comment content) = jsonMarshalContent TypeComment content
      from rfl, jsonMarshalContent] at hobj
    cases hobj
    intro kv hkv
    rcases List.mem_append.mp hkv with hkv | hkv
    all_goals
      obtain ⟨he, hne⟩ := mem_strField hkv
      rw [he]
      exact ⟨by simp [hne], by simp⟩
  | text content =>
    rw [show nodeMarshalJSON (.text content) = jsonMarshalContent TypeText content
      from rfl, jsonMarshalContent] at hobj
    cases hobj
    intro kv hkv
    rcases List.mem_append.mp hkv with hkv | hkv
    all_goals
      obtain ⟨he, hne⟩ := mem_strField hkv
      rw [he]
      exact ⟨by simp [hne], by simp⟩
  | elem name attrs children =>
    rw [nodeMarshalJSON] at hobj
    cases hobj
    intro kv hkv
    rcases List.mem_append.mp hkv with hkv | hkv
    · rcases List.mem_append.mp hkv with hkv | hkv
      · rcases List.mem_append.mp hkv with hkv | hkv
        · obtain ⟨he, hne⟩ := mem_strField hkv
          rw [he]
          exact ⟨by simp [hne], by simp⟩
        · rcases List.mem_singleton.mp hkv with rfl
          simp only [nameToJson]
          exact ⟨by simp, by simp⟩
      · by_cases ha : attrs.isEmpty
        · rw [if_pos ha] at hkv
          cases hkv
        · rw [if_neg ha] at hkv
          rcases List.mem_singleton.mp hkv with rfl
          refine ⟨by simp, ?_⟩
          simp only [ne_eq, Json.arr.injEq, List.map_eq_nil_iff]
          intro hcon
          subst hcon
          exact ha rfl
    · by_cases hc : children.isEmpty
      · rw [if_pos hc] at hkv
        cases hkv
      · rw [if_neg hc] at hkv
        rcases List.mem_singleton.mp hkv with rfl
        refine ⟨by simp, ?_⟩
        simp only [ne_eq, Json.arr.injEq]
        rw [nodeListMarshalJSON_eq_map]
        simp only [List.map_eq_nil_iff]
        intro hcon
        subst hcon
        exact hc rfl

/-! ## Claim theorems -/

/-- Claim C1: for every tree buildable from the Node Model (any `Pi`,
`Decl`, `Comment`, `Text` or `Elem` node, and any `Nodes` sequence),
JSON-decoding the JSON-encoding yields a value equal to the original:
`nodeDecoder.UnmarshalJSON` (and `Nodes.UnmarshalJSON`) invert
`MarshalJSON` exactly. -/
theorem C1_json_round_trip :
    (∀ n : Node, decodeNodeJson (nodeMarshalJSON n) = .ok n) ∧
    (∀ ns : List Node, nodesUnmarshalJSON (nodesMarshalJSON ns) = .ok ns) :=
  ⟨decodeNodeJson_marshal, nodesUnmarshalJSON_marshal⟩

/-- Claim C2: each of the five discriminators decodes to its matching Node
variant and only that variant; any other non-empty discriminator string
fails with the unrecognized-node-type error naming the value; an object
lacking the `type` field fails with the missing-discriminator error
quoting the raw input. -/
theorem C2_discriminator_completeness :
    (∀ fields (n : Node), jlookup ("type") fields = some (.str TypePi) →
      decodeNodeJson (.obj fields) = .ok n → ∃ target content, n = .pi target content) ∧
    (∀ fields (n : Node), jlookup ("type") fields = some (.str TypeDecl) →
      decodeNodeJson (.obj fields) = .ok n → ∃ content, n = .decl content) ∧
    (∀ fields (n : Node), jlookup ("type") fields = some (.str TypeComment) →
      decodeNodeJson (.obj fields) = .ok n → ∃ content, n = .comment content) ∧
    (∀ fields (n : Node), jlookup ("type") fields = some (.str TypeText) →
      decodeNodeJson (.obj fields) = .ok n → ∃ content, n = .text content) ∧
    (∀ fields (n : Node), jlookup ("type") fields = some (.str TypeElem) →
      decodeNodeJson (.obj fields) = .ok n →
      ∃ name attrs children, n = .elem name attrs children) ∧
    (∀ fields typ, jlookup ("type") fields = some (.str typ) → typ ≠ "" →
      typ ≠ TypePi → typ ≠ TypeDecl → typ ≠ TypeComment → typ ≠ TypeText →
      typ ≠ TypeElem → decodeNodeJson (.obj fields) = .error (.unknownType typ)) ∧
    (∀ fields, jlookup ("type") fields = none →
      decodeNodeJson (.obj fields) = .error (.missingType (.obj fields))) := by
  refine ⟨?_, ?_, ?_, ?_, ?_, ?_, ?_⟩
  · intro fields n hty hok
    rw [decodeNodeJson_obj_pi fields hty] at hok
    exact jsonToPi_shape hok
  · intro fields n hty hok
    rw [decodeNodeJson_obj_decl fields hty] at hok
    exact jsonUnmarshalContent_map_shape hok
  · intro fields n hty hok
    rw [decodeNodeJson_obj_comment fields hty] at hok
    exact jsonUnmarshalContent_map_shape hok
  · intro fields n hty hok
    rw [decodeNodeJson_obj_text fields hty] at hok
    exact jsonUnmarshalContent_map_shape hok
  · intro fields n hty hok
    rw [decodeNodeJson_obj_elem fields hty] at hok
    exact jsonToElemWith_shape hok
  · intro fields typ hty h0 h1 h2 h3 h4 h5
    exact decodeNodeJson_obj_unknown fields hty h0 h1 h2 h3 h4 h5
  · intro fields h
    exact decodeNodeJson_obj_missing fields h

/-- Witness for C2 at concrete inputs: discriminator `pi` produced a `pi`
node, an unknown discriminator failed naming the value, and a missing
discriminator failed quoting the input. -/
theorem C2_witness :
    (∃ target content, Node.pi "" "" = Node.pi target content) ∧
    decodeNodeJson (.obj [(("type"), Json.str ("bogus"))]) =
      .error (.unknownType ("bogus")) ∧
    decodeNodeJson (.obj []) = .error (.missingType (.obj [])) := by
  refine ⟨?_, ?_, ?_⟩
  · exact C2_discriminator_completeness.1 [(("type"), Json.str TypePi)]
      (Node.pi "" "") rfl (by rfl)
  · exact C2_discriminator_completeness.2.2.2.2.2.1 [(("type"), Json.str ("bogus"))]
      ("bogus") rfl (by decide) (by decide) (by decide) (by decide) (by decide)
      (by decide)
  · exact C2_discriminator_completeness.2.2.2.2.2.2 [] rfl

/-- Claim C3: when the attribute list contains an attribute named exactly
`(space="", local="xmlns")` whose value equals the element's own
`Name.Space`, `Elem.MarshalXML` emits the start tag with the tag name's
space cleared to empty, and otherwise with the stored space unchanged; the
encoder is a pure function of the element value (a Go value receiver), so
the caller's `Elem` keeps its original `Name.Space` either way. The
hypothesis restricts to elements the encoder accepts at all (non-empty
local name, the error path of C4). -/
theorem C3_namespace_suppression :
    ∀ name attrs children, name.local_ ≠ "" →
      ∃ toks res,
        elemMarshalXML name attrs children =
          (Tok.startElement
            ⟨if hasExactAttr attrs ("") ("xmlns") name.space then "" else name.space,
              name.local_⟩ attrs :: toks, res) := by
  intro name attrs children hloc
  rcases hres : nodesMarshalXML children with ⟨toks, res⟩
  by_cases hha : hasExactAttr attrs ("") ("xmlns") name.space = true
  · cases res with
    | some e =>
      refine ⟨toks, some e, ?_⟩
      rw [elemMarshalXML, nodeMarshalXML, if_neg hloc]
      simp only [hha, if_true, ite_true, hres]
    | none =>
      refine ⟨toks ++ [.endElement ⟨"", name.local_⟩], none, ?_⟩
      rw [elemMarshalXML, nodeMarshalXML, if_neg hloc]
      simp only [hha, if_true, ite_true, hres]
  · have hha2 : hasExactAttr attrs ("") ("xmlns") name.space = false := by
      simpa using hha
    cases res with
    | some e =>
      refine ⟨toks, some e, ?_⟩
      rw [elemMarshalXML, nodeMarshalXML, if_neg hloc]
      simp only [hha2, Bool.false_eq_true, if_false, ite_false, hres]
    | none =>
      refine ⟨toks ++ [.endElement name], none, ?_⟩
      rw [elemMarshalXML, nodeMarshalXML, if_neg hloc]
      simp only [hha2, Bool.false_eq_true, if_false, ite_false, hres]

/-- Witness for C3: an element in namespace `u` carrying the attribute
`xmlns="u"` emits its start tag through the suppression conditional. -/
theorem C3_witness :
    ∃ toks res,
      elemMarshalXML ⟨("u"), ("a")⟩ [⟨⟨"", ("xmlns")⟩, ("u")⟩] [] =
        (Tok.startElement
          ⟨if hasExactAttr [⟨⟨"", ("xmlns")⟩, ("u")⟩] ("") ("xmlns") ("u") then ""
            else ("u"), ("a")⟩ [⟨⟨"", ("xmlns")⟩, ("u")⟩] :: toks, res) :=
  C3_namespace_suppression ⟨("u"), ("a")⟩ [⟨⟨"", ("xmlns")⟩, ("u")⟩] [] (by decide)

/-- Claim C4: markup-encoding a processing instruction with empty target,
or an element with empty local name, always fails with the corresponding
encode error and emits no tokens to the encoder. -/
theorem C4_empty_name_rejection :
    (∀ content, piMarshalXML ("") content = ([], some .emptyPiTarget)) ∧
    (∀ space attrs children,
      elemMarshalXML ⟨space, ""⟩ attrs children = ([], some .emptyElemName)) := by
  constructor
  · intro content
    rw [piMarshalXML, if_pos rfl]
  · intro space attrs children
    rw [elemMarshalXML, nodeMarshalXML]
    rw [if_pos rfl]

/-- Claim C5: `DecodeToken` maps an already-fetched token by a fixed total
mapping on its kind: processing instruction to `Pi`, directive to `Decl`,
comment to `Comment`, character data to `Text`, element start to full
element decoding of the children stream, and the only remaining kind, a
bare element end, to the unexpected-token error naming the token. -/
theorem C5_decode_token_mapping :
    (∀ target inst s, decodeToken (.procInst target inst) s = .ok (.pi target inst, s)) ∧
    (∀ content s, decodeToken (.directive content) s = .ok (.decl content, s)) ∧
    (∀ content s, decodeToken (.comment content) s = .ok (.comment content, s)) ∧
    (∀ content s, decodeToken (.charData content) s = .ok (.text content, s)) ∧
    (∀ name attrs s, decodeToken (.startElement name attrs) s =
      (decodeChildren s).map fun p => (.elem name attrs p.1, p.2)) ∧
    (∀ name s, decodeToken (.endElement name) s =
      .error (.unexpectedToken (.endElement name))) := by
  refine ⟨fun _ _ _ => rfl, fun _ _ => rfl, fun _ _ => rfl, fun _ _ => rfl,
    ?_, fun _ _ => rfl⟩
  intro name attrs s
  rw [show decodeToken (.startElement name attrs) s =
    decodeTokenF s.length (.startElement name attrs) s from rfl]
  simp only [decodeTokenF]
  rw [show decodeChildrenF s.length s = decodeChildren s from rfl]
  cases h : decodeChildren s with
  | error e => simp only [h, Except.map]
  | ok p =>
    obtain ⟨kids, rem⟩ := p
    simp only [h, Except.map]

/-- Claim C6: end-of-stream is never an error: mid-element, the child loop
returns success with the children gathered so far, exactly as if a matching
element-end token had been consumed (the appended end token is either
absorbed as a terminator or left for the caller, the children unchanged);
an element cut off immediately decodes to its start tag's data; at top
level `Nodes.Decode` also succeeds at end-of-stream. -/
theorem C6_eof_is_success :
    (∀ s ns name, decodeChildren s = .ok (ns, []) →
      decodeChildren (s ++ [.endElement name]) = .ok (ns, []) ∨
      decodeChildren (s ++ [.endElement name]) = .ok (ns, [.endElement name])) ∧
    decodeChildren [] = .ok ([], []) ∧
    (∀ name attrs, elemUnmarshalXML name attrs [] = .ok (.elem name attrs [], [])) ∧
    decodeNodes [] = .ok [] :=
  ⟨fun s ns name h => decodeChildren_absorb s ns name h, rfl, fun _ _ => rfl, rfl⟩

/-- Witness for C6: a stream that ends after one text token decodes to the
same children as the stream with an explicit end token appended. -/
theorem C6_witness :
    decodeChildren ([Tok.charData ("a")] ++ [.endElement ⟨"", ""⟩]) =
        .ok ([Node.text ("a")], []) ∨
      decodeChildren ([Tok.charData ("a")] ++ [.endElement ⟨"", ""⟩]) =
        .ok ([Node.text ("a")], [.endElement ⟨"", ""⟩]) :=
  C6_eof_is_success.1 [Tok.charData ("a")] [Node.text ("a")] ⟨"", ""⟩ rfl

/-- Claim C7: order preservation end to end: a decoded element stores the
start token's name and attribute list verbatim; markup-encoding an
encodable sequence and decoding the emitted tokens reproduces the sequence
exactly, in order, with nothing reordered, merged or dropped (the one
stated exception, namespace-attribute suppression of the tag name's space,
is excluded by `xmlEncodableList`); and the JSON encoder emits the members
of a sequence in stored order. -/
theorem C7_order_preservation :
    (∀ name attrs s n rem, elemUnmarshalXML name attrs s = .ok (n, rem) →
      ∃ kids, n = .elem name attrs kids) ∧
    (∀ ns, xmlEncodableList ns = true →
      ∃ toks, nodesMarshalXML ns = (toks, none) ∧ decodeNodes toks = .ok ns) ∧
    (∀ ns, nodesMarshalJSON ns = .arr (ns.map nodeMarshalJSON)) := by
  refine ⟨?_, decodeNodes_marshalXML, fun ns => ?_⟩
  · intro name attrs s n rem h
    rw [elemUnmarshalXML, decodeToken] at h
    simp only [decodeTokenF] at h
    cases h2 : decodeChildrenF s.length s with
    | error e => simp only [h2] at h; simp at h
    | ok p =>
      obtain ⟨kids, rem2⟩ := p
      simp only [h2] at h
      cases h
      exact ⟨kids, rfl⟩
  · rw [nodesMarshalJSON, nodeListMarshalJSON_eq_map]

/-- Witness for C7: a decoded element carries its start token's data, and a
one-text-node document survives the markup round trip. -/
theorem C7_witness :
    (∃ kids, Node.elem ⟨"", ("a")⟩ [] [] = Node.elem ⟨"", ("a")⟩ [] kids) ∧
    ∃ toks, nodesMarshalXML [Node.text ("x")] = (toks, none) ∧
      decodeNodes toks = .ok [Node.text ("x")] :=
  ⟨C7_order_preservation.1 ⟨"", ("a")⟩ [] [] (Node.elem ⟨"", ("a")⟩ [] []) [] rfl,
    C7_order_preservation.2.1 [Node.text ("x")] (by decide)⟩

/-- Claim C8: JSON encoding omits empty-string fields and empty
attribute/node lists (no emitted field value is the empty string or the
empty array), and decoding yields the same node whether such fields are
absent or present with an empty value: the fully explicit encoding and the
omitting encoding both decode back to the original node, as in the
`{"type":"text"}` versus `{"type":"text","content":""}` example. -/
theorem C8_omit_if_empty :
    (∀ (n : Node) (fields : List (String × Json)), nodeMarshalJSON n = .obj fields →
      ∀ kv ∈ fields, kv.2 ≠ .str "" ∧ kv.2 ≠ .arr []) ∧
    (∀ n : Node, decodeNodeJson (nodeMarshalJSONFull n) = .ok n ∧
      decodeNodeJson (nodeMarshalJSON n) = .ok n) ∧
    decodeNodeJson (.obj [(("type"), Json.str TypeText)]) = .ok (.text "") ∧
    decodeNodeJson (.obj [(("type"), Json.str TypeText), (("content"), Json.str (""))]) =
      .ok (.text "") :=
  ⟨nodeMarshalJSON_no_empty_fields,
    fun n => ⟨decodeNodeJson_marshalFull n, decodeNodeJson_marshal n⟩, rfl, rfl⟩

/-- Witness for C8: the `content` field the encoder emits for `Text("x")`
is neither the empty string nor an empty array. -/
theorem C8_witness :
    Json.str ("x") ≠ Json.str ("") ∧ Json.str ("x") ≠ Json.arr [] := by
  have key := C8_omit_if_empty.1 (Node.text ("x"))
    [(("type"), Json.str TypeText), (("content"), Json.str ("x"))] (by rfl)
    ((("content"), Json.str ("x"))) (by simp)
  exact key

/-- Claim C9: an object whose `type` field is present but empty fails with
the same missing-discriminator error as an object lacking the field, never
with the unrecognized-node-type error. -/
theorem C9_empty_type_discriminator :
    ∀ fields, jlookup ("type") fields = some (.str ("")) →
      decodeNodeJson (.obj fields) = .error (.missingType (.obj fields)) :=
  fun fields h => decodeNodeJson_obj_empty_typ fields h

/-- Witness for C9 at the concrete object with an empty `type` field. -/
theorem C9_witness :
    decodeNodeJson (.obj [(("type"), Json.str (""))]) =
      .error (.missingType (.obj [(("type"), Json.str (""))])) :=
  C9_empty_type_discriminator [(("type"), Json.str (""))] rfl

/-- Claim C10: JSON encoding accepts the values the markup encoder rejects:
a `Pi` with empty target and an `Elem` with empty local name marshal to
tagged JSON objects (the functions are total), while markup encoding of the
same values fails with no output; the empty-name restriction binds only the
markup encoder. -/
theorem C10_json_tolerates_empty_names :
    (∀ content, ∃ rest,
      piMarshalJSON ("") content = .obj ((("type"), Json.str TypePi) :: rest) ∧
      piMarshalXML ("") content = ([], some .emptyPiTarget)) ∧
    (∀ space attrs children, ∃ rest,
      elemMarshalJSON ⟨space, ""⟩ attrs children =
        .obj ((("type"), Json.str TypeElem) :: rest) ∧
      elemMarshalXML ⟨space, ""⟩ attrs children = ([], some .emptyElemName)) := by
  constructor
  · intro content
    refine ⟨strField ("content") content, ?_, ?_⟩
    · simp [piMarshalJSON, strField, TypePi]
    · rw [piMarshalXML, if_pos rfl]
  · intro space attrs children
    refine ⟨[(("name"), nameToJson ⟨space, ""⟩)] ++
      (if attrs.isEmpty then [] else [(("attrs"), Json.arr (attrs.map attrToJson))]) ++
      (if children.isEmpty then [] else
        [(("nodes"), Json.arr (nodeListMarshalJSON children))]), ?_, ?_⟩
    · simp [elemMarshalJSON, nodeMarshalJSON, strField, TypeElem]
    · rw [elemMarshalXML, nodeMarshalXML]
      rw [if_pos rfl]

end Xt
